import Mathlib

/-!
Shallow embedding of the `mcp-fhe-field-encryption` module: the simulated
homomorphic ciphertext engine (`utils.ts` / `constants.ts`, here `src/unnamed/part_000`)
and the service-level multiply chain, circuit compiler and noise-level logic
(`mcp-fhe-field-encryption.service.ts`, here `src/unnamed/part_001`).

Modelling conventions:
- JavaScript `Uint8Array` payloads are `List Nat`; a store into a `Uint8Array`
  truncates to a byte, written `% 256` exactly where the source stores a value.
- JavaScript floating-point `number` fields that only flow through `+ * >` with
  decimal constants are modelled as `ℚ`; every claim about them is a formula-level
  identity that holds independently of rounding.
- `Math.random()` draws and the keccak256 hash are modelled as explicit
  parameters (a keystream list, a tag list, a rational draw), since the claims
  either fix them (C1: deterministic keystream) or quantify over them (C10).
- JS bit operations `<< >> & |` act on signed 32-bit integers; the `Nat`
  model of the 4-byte length prefix agrees with the source whenever the encoded
  length is below 2^31 (high bit clear), which the length-dependent theorems
  assume explicitly.
-/

namespace Fhe

/-- Constants from `constants.ts` (`FHE_CONSTANTS`). -/
def BASE_NOISE : ℚ := 3.2

/-- `FHE_CONSTANTS.MAX_NOISE_LEVEL`. -/
def MAX_NOISE_LEVEL : ℚ := 100

/-- `FHE_CONSTANTS.NOISE_GROWTH_FACTORS.ADD`. -/
def ADD_FACTOR : ℚ := 1.1

/-- `FHE_CONSTANTS.NOISE_GROWTH_FACTORS.MULTIPLY`. -/
def MULTIPLY_FACTOR : ℚ := 2.5

/-- `FHE_CONSTANTS.NOISE_GROWTH_FACTORS.ROTATE`. -/
def ROTATE_FACTOR : ℚ := 1.2

/-- `FHE_CONSTANTS.MAX_CIPHERTEXT_SIZE`. -/
def MAX_CIPHERTEXT_SIZE : Nat := 3

/-- `FHE_CONSTANTS.MAX_CIRCUIT_DEPTH`. -/
def MAX_CIRCUIT_DEPTH : Nat := 20

/-- The ciphertext objects produced by `encryptValue` and the homomorphic
operations: `{ data, noise, depth, size }`, with the optional flags
`bootstrapped` (set by `bootstrapCiphertext`) and `relinearized` (set by
`relinearizeMockValue`); absent JS fields are modelled as `false`. -/
structure Ciphertext where
  data : List Nat
  noise : ℚ
  depth : Nat
  size : Nat
  bootstrapped : Bool := false
  relinearized : Bool := false
deriving DecidableEq

/-- `encryptValue` (utils, lines 51-78). The Gaussian keystream
`generateNoise(noiseStdDev)` (32 random bytes) and the 32-byte tag
`keccak256(value ++ noise)` are passed as explicit parameters `keystream`
and `tag`; the payload is `value[i] ^ keystream[i % keystream.length]`
for each plaintext index, followed by the tag, and the metadata is
`noise = noiseStdDev`, `depth = 0`, `size = 2`. -/
def encryptValue (noiseStdDev : ℚ) (keystream tag value : List Nat) : Ciphertext :=
  { data := (List.range value.length).map
      (fun i => (value.getD i 0 ^^^ keystream.getD (i % keystream.length) 0) % 256) ++ tag
    noise := noiseStdDev
    depth := 0
    size := 2 }

/-- `decryptValue` (utils, lines 81-98). The regenerated keystream
`generateNoise(ciphertext.noise)` is passed as the explicit parameter
`keystream`; the function XORs it against the payload excluding the
trailing 32-byte tag (`originalLength = data.length - 32`). -/
def decryptValue (keystream : List Nat) (c : Ciphertext) : List Nat :=
  (List.range (c.data.length - 32)).map
    (fun i => (c.data.getD i 0 ^^^ keystream.getD (i % keystream.length) 0) % 256)

/-- `performHomomorphicAdd` (utils, lines 101-122): elementwise
`(aVal + bVal) % 256` over the longer payload, missing bytes read as 0. -/
def performHomomorphicAdd (a b : Ciphertext) : Ciphertext :=
  { data := (List.range (max a.data.length b.data.length)).map
      (fun i => (a.data.getD i 0 + b.data.getD i 0) % 256)
    noise := a.noise + b.noise + ADD_FACTOR
    depth := max a.depth b.depth
    size := a.size }

/-- One store of the multiply loop body (utils, line 136):
`result[p] = (result[p] + v) % 256`, on cells modelled as a total
function `Nat → Nat` (every store in the loop is in bounds). -/
def updCell (f : Nat → Nat) (p v : Nat) : Nat → Nat :=
  fun k => if k = p then (f k + v) % 256 else f k

/-- The nested loops of `performHomomorphicMultiply` (utils, lines 134-138),
run over a zero-initialised result buffer:
for `i < a.length`, for `j < b.length`, `result[i+j] += a[i]*b[j] (mod 256)`. -/
def multCells (a b : List Nat) : Nat → Nat :=
  (List.range a.length).foldl
    (fun f i => (List.range b.length).foldl
      (fun g j => updCell g (i + j) (a.getD i 0 * b.getD j 0)) f)
    (fun _ => 0)

/-- The result buffer of `performHomomorphicMultiply`:
`new Uint8Array(a.data.length + b.data.length)` after the nested loops. -/
def multData (a b : List Nat) : List Nat :=
  (List.range (a.length + b.length)).map (multCells a b)

/-- `performHomomorphicMultiply` (utils, lines 124-146). -/
def performHomomorphicMultiply (a b : Ciphertext) : Ciphertext :=
  { data := multData a.data b.data
    noise := a.noise * b.noise * MULTIPLY_FACTOR
    depth := max a.depth b.depth + 1
    size := a.size + b.size }

/-- `bootstrapCiphertext` (utils, lines 149-161):
`{ ...ciphertext, noise: BASE_NOISE, depth: 0, bootstrapped: true }`. -/
def bootstrapCiphertext (c : Ciphertext) : Ciphertext :=
  { c with noise := BASE_NOISE, depth := 0, bootstrapped := true }

/-- `relinearizeMockValue` (utils, lines 255-261):
`{ ...value, size: 2, relinearized: true }`; this is what
`tfheInstance.relinearize` dispatches to. -/
def relinearizeMockValue (c : Ciphertext) : Ciphertext :=
  { c with size := 2, relinearized := true }

/-- `needsRelinearization` (service, lines 522-524):
`(ciphertext.size || 2) > MAX_CIPHERTEXT_SIZE` — a JS falsy (zero) size
reads as 2. -/
def needsRelinearization (c : Ciphertext) : Bool :=
  (if c.size = 0 then 2 else c.size) > MAX_CIPHERTEXT_SIZE

/-- The body of the multiply-chain loop in `performMultiplication`
(service, lines 301-313): multiply the accumulator by the next input, then
relinearize if `needsRelinearization` holds. -/
def multChainStep (r x : Ciphertext) : Ciphertext :=
  let m := performHomomorphicMultiply r x
  if needsRelinearization m then relinearizeMockValue m else m

/-- `performMultiplication` (service, lines 289-316): throws when fewer than
two inputs are given (modelled as `none`), otherwise folds the chain step
over the inputs starting from the first. -/
def performMultiplication (inputs : List Ciphertext) : Option Ciphertext :=
  match inputs with
  | x :: y :: rest => some ((y :: rest).foldl multChainStep x)
  | _ => none

/-- The 4 length-prefix bytes written by `packValues` (utils, lines 271-274):
`[(len >> 24) & 0xff, (len >> 16) & 0xff, (len >> 8) & 0xff, len & 0xff]`. -/
def packLen4 (n : Nat) : List Nat :=
  [n >>> 24 &&& 255, n >>> 16 &&& 255, n >>> 8 &&& 255, n &&& 255]

/-- `packValues` (utils, lines 264-283): the preallocated buffer is filled
sequentially, which concatenates, for each value, its 4-byte big-endian
length prefix followed by its raw bytes. -/
def packValues : List (List Nat) → List Nat
  | [] => []
  | v :: vs => packLen4 v.length ++ v ++ packValues vs

/-- The length read back by `unpackValues` (utils, lines 291-294):
`(b0 << 24) | (b1 << 16) | (b2 << 8) | b3`. JS evaluates this on signed
32-bit integers; the `Nat` reading agrees whenever `b0 < 128`
(declared length below 2^31). -/
def readLen (b0 b1 b2 b3 : Nat) : Nat :=
  b0 <<< 24 ||| b1 <<< 16 ||| b2 <<< 8 ||| b3

/-- `unpackValues` (utils, lines 285-304): while bytes remain, read the
4-byte length prefix (out-of-range reads coerce to 0, as JS
`undefined << k` does), then `slice(offset, offset + length)` — which
clamps, silently truncating — and advance. The loop advances `offset`
by at least 4 each iteration, hence terminates. -/
def unpackValues (packed : List Nat) : List (List Nat) :=
  if _hp : packed.length = 0 then []
  else
    let len := readLen (packed.getD 0 0) (packed.getD 1 0) (packed.getD 2 0) (packed.getD 3 0)
    ((packed.drop 4).take len) :: unpackValues ((packed.drop 4).drop len)
termination_by packed.length
decreasing_by simp only [List.length_drop]; omega

/-- `calculateNoiseLevel` (service, lines 515-520): the `Math.random()`
draw is the explicit parameter `rand`; `depthFactor = depth || 1`
(a zero depth reads as 1); the ciphertext's `noise` and `data` fields are
never consulted. -/
def calculateNoiseLevel (rand : ℚ) (c : Ciphertext) : ℚ :=
  let baseNoise := rand * 50
  let depthFactor : ℚ := if c.depth = 0 then 1 else (c.depth : ℚ)
  baseNoise * depthFactor

/-- The needs-bootstrapping decision of `performHomomorphicOperation`
(service, line 249): `noiseLevel > FHE_CONSTANTS.MAX_NOISE_LEVEL`. -/
def needsBootstrapping (rand : ℚ) (c : Ciphertext) : Bool :=
  MAX_NOISE_LEVEL < calculateNoiseLevel rand c

/-- A gate of an `FheCircuit` (types): operation tag, input wire names,
output wire name (the optional operation-specific `parameters` field is
unused by depth calculation and omitted). -/
structure Gate where
  operation : String
  inputs : List String
  output : String
deriving DecidableEq

/-- `FheCircuit` (types): named circuit with declared input/output wires
and an ordered gate list. -/
structure FheCircuit where
  name : String
  inputs : List String
  outputs : List String
  gates : List Gate
deriving DecidableEq

/-- The execution plan built by `compileCircuit` (service, lines 587-606). -/
structure ExecutionPlan where
  operations : List Gate
  inputCount : Nat
  outputCount : Nat
  depth : Option Nat
  estimatedNoiseGrowth : ℚ
deriving DecidableEq

/-- JS `Math.max` on depth values, where `none` models the `-Infinity`
produced by `Math.max()` over an empty spread. -/
def jsMax : Option Nat → Option Nat → Option Nat
  | none, y => y
  | some a, none => some a
  | some a, some b => some (max a b)

/-- `depths.get(i) || 0` (service, line 618): a missing wire reads as
depth 0; a stored value is returned unchanged (`-Infinity` is truthy,
and `0 || 0` is `0`). -/
def jsGetDepth (m : List (String × Option Nat)) (w : String) : Option Nat :=
  (m.lookup w).getD (some 0)

/-- `Math.max(...inputDepths)` (service, lines 619-621): fold of `jsMax`
starting from `-Infinity`. -/
def jsMaxList (l : List (Option Nat)) : Option Nat :=
  l.foldl jsMax none

/-- One iteration of the gate loop in `calculateCircuitDepth`
(service, lines 617-624): compute the gate depth
(`max(inputDepths) + 1` for `multiply`, `max(inputDepths)` otherwise),
bind it to the output wire, and raise the running maximum. -/
def depthStep (st : List (String × Option Nat) × Option Nat) (g : Gate) :
    List (String × Option Nat) × Option Nat :=
  let inputDepths := g.inputs.map (jsGetDepth st.1)
  let gateDepth := if g.operation = "multiply"
    then (jsMaxList inputDepths).map (· + 1)
    else jsMaxList inputDepths
  ((g.output, gateDepth) :: st.1, jsMax st.2 gateDepth)

/-- `calculateCircuitDepth` (service, lines 608-627): seed every declared
circuit input at depth 0, walk the gates in list order with `depthStep`,
return the running maximum (initially 0). -/
def calculateCircuitDepth (c : FheCircuit) : Option Nat :=
  (c.gates.foldl depthStep
    (c.inputs.foldl (fun m w => (w, (some 0 : Option Nat)) :: m) [], some 0)).2

/-- `estimateNoiseGrowth` (service, lines 629-648): multiplicative
accumulation of the per-gate growth factor starting from `BASE_NOISE`. -/
def estimateNoiseGrowth (c : FheCircuit) : ℚ :=
  c.gates.foldl
    (fun acc g =>
      if g.operation = "multiply" then acc * MULTIPLY_FACTOR
      else if g.operation = "add" then acc * ADD_FACTOR
      else if g.operation = "rotate" then acc * ROTATE_FACTOR
      else acc)
    BASE_NOISE

/-- `compileCircuit` (service, lines 587-606): flattens the gate list and
records counts, depth and estimated noise growth. It is a total function:
no validation against `MAX_CIRCUIT_DEPTH` (or anything else) occurs, and
`executeCircuit` (lines 659-698) likewise runs the gates without any
depth check. -/
def compileCircuit (c : FheCircuit) : ExecutionPlan :=
  { operations := c.gates
    inputCount := c.inputs.length
    outputCount := c.outputs.length
    depth := calculateCircuitDepth c
    estimatedNoiseGrowth := estimateNoiseGrowth c }

/-- Wire name helper for the concrete circuits used in the theorems. -/
def wire (i : Nat) : String := "w" ++ toString i

/-- A circuit of 21 chained multiply gates: gate `i` multiplies wire `i`
by input `x` into wire `i+1`, so the realized multiplicative depth is 21,
which exceeds `MAX_CIRCUIT_DEPTH = 20`. -/
def deepCircuit : FheCircuit :=
  { name := "deep"
    inputs := [wire 0, "x"]
    outputs := [wire 21]
    gates := (List.range 21).map
      (fun i => { operation := "multiply", inputs := [wire i, "x"], output := wire (i + 1) }) }

/-- A circuit with a single `add` gate over two inputs. -/
def singleAddCircuit : FheCircuit :=
  { name := "a"
    inputs := ["input1", "input2"]
    outputs := ["out"]
    gates := [{ operation := "add", inputs := ["input1", "input2"], output := "out" }] }

/-- A circuit with a single `multiply` gate over two inputs. -/
def singleMulCircuit : FheCircuit :=
  { name := "m"
    inputs := ["input1", "input2"]
    outputs := ["out"]
    gates := [{ operation := "multiply", inputs := ["input1", "input2"], output := "out" }] }

/-- A circuit chaining two sequential multiply gates. -/
def chainMulCircuit : FheCircuit :=
  { name := "mm"
    inputs := ["input1", "input2", "input3"]
    outputs := ["out"]
    gates :=
      [{ operation := "multiply", inputs := ["input1", "input2"], output := "t" },
       { operation := "multiply", inputs := ["t", "input3"], output := "out" }] }

/-- Three concrete fresh ciphertexts of component count 2, used to
exercise the multiply chain. -/
def sampleSizeTwoInputs : List Ciphertext :=
  [{ data := [1], noise := 1, depth := 0, size := 2 },
   { data := [2], noise := 1, depth := 0, size := 2 },
   { data := [3], noise := 1, depth := 0, size := 2 }]

/-! Helper lemmas shared by several claims. -/

/-- Reading a mapped range with a default: in range it is `f i`, out of
range it is the default `0`. -/
theorem getD_map_range (f : Nat → Nat) (n i : Nat) :
    ((List.range n).map f).getD i 0 = if i < n then f i else 0 := by
  by_cases h : i < n
  · simp [List.getD_eq_getElem?_getD, List.getElem?_map, List.getElem?_range, h]
  · have hn : (List.range n).length ≤ i := by
      simpa using Nat.le_of_not_lt h
    simp [List.getD_eq_getElem?_getD, List.getElem?_map,
      List.getElem?_eq_none hn, h]

/-- A list equals the range-map of its own `getD` reads. -/
theorem map_getD_range (l : List Nat) :
    (List.range l.length).map (fun i => l.getD i 0) = l := by
  apply List.ext_getElem
  · simp
  · intro i h1 h2
    simp only [List.getElem_map, List.getElem_range]
    simp [List.getD_eq_getElem?_getD, List.getElem?_eq_getElem h2]

/-- A `getD` read past the end of a list yields the default. -/
theorem getD_of_length_le {l : List Nat} {i : Nat} (h : l.length ≤ i) :
    l.getD i 0 = 0 := by
  simp [List.getD_eq_getElem?_getD, List.getElem?_eq_none h]

/-- C3: `performHomomorphicAdd` returns a payload of the longer operand's
length whose bytes are the elementwise mod-256 sums (shorter payload
zero-padded), with `noise = a.noise + b.noise + 1.1`,
`depth = max(a.depth, b.depth)` and `componentCount = a.componentCount`. -/
theorem add_contract (a b : Ciphertext) :
    (performHomomorphicAdd a b).data.length = max a.data.length b.data.length ∧
    (∀ i : Nat, (performHomomorphicAdd a b).data.getD i 0
      = (a.data.getD i 0 + b.data.getD i 0) % 256) ∧
    (performHomomorphicAdd a b).noise = a.noise + b.noise + 1.1 ∧
    (performHomomorphicAdd a b).depth = max a.depth b.depth ∧
    (performHomomorphicAdd a b).size = a.size := by
  refine ⟨by simp [performHomomorphicAdd], ?_, rfl, rfl, rfl⟩
  intro i
  show ((List.range (max a.data.length b.data.length)).map
      (fun i => (a.data.getD i 0 + b.data.getD i 0) % 256)).getD i 0 = _
  rw [getD_map_range]
  by_cases h : i < max a.data.length b.data.length
  · simp [h]
  · have hle := Nat.le_of_not_lt h
    have ha : a.data.getD i 0 = 0 :=
      getD_of_length_le (le_trans (Nat.le_max_left _ _) hle)
    have hb : b.data.getD i 0 = 0 :=
      getD_of_length_le (le_trans (Nat.le_max_right _ _) hle)
    simp only [List.getD_eq_getElem?_getD] at ha hb
    simp [h, ha, hb]

/-- C4: `bootstrapCiphertext` resets `noise` to `3.2` and `depth` to `0`,
sets `bootstrapped`, and leaves the payload and every other field
(including `componentCount`) unchanged, for every input ciphertext —
in particular for an already-bootstrapped one. -/
theorem bootstrap_contract (c : Ciphertext) :
    (bootstrapCiphertext c).noise = 3.2 ∧
    (bootstrapCiphertext c).depth = 0 ∧
    (bootstrapCiphertext c).bootstrapped = true ∧
    (bootstrapCiphertext c).data = c.data ∧
    (bootstrapCiphertext c).size = c.size ∧
    (bootstrapCiphertext c).relinearized = c.relinearized :=
  ⟨rfl, rfl, rfl, rfl, rfl, rfl⟩

/-- C10: `calculateNoiseLevel` evaluated with the same random draw agrees
on any two ciphertexts with equal `depth` fields, whatever their `noise`
and `data` fields; hence the needs-bootstrapping decision of
`performHomomorphicOperation` also depends only on the depth field and
the fresh randomness, never on the actual noise field. -/
theorem noise_level_depends_only_on_depth (r : ℚ) (c1 c2 : Ciphertext)
    (h : c1.depth = c2.depth) :
    calculateNoiseLevel r c1 = calculateNoiseLevel r c2 ∧
    needsBootstrapping r c1 = needsBootstrapping r c2 := by
  have h1 : calculateNoiseLevel r c1 = calculateNoiseLevel r c2 := by
    simp only [calculateNoiseLevel, h]
  exact ⟨h1, by simp only [needsBootstrapping, h1]⟩

/-- Witness for C10 at two concrete ciphertexts of equal depth but
different noise and payload. -/
theorem noise_level_depends_only_on_depth_witness :
    ({ data := [1], noise := 5, depth := 3, size := 2 } : Ciphertext).depth
      = ({ data := [9, 9], noise := 77, depth := 3, size := 4 } : Ciphertext).depth ∧
    (calculateNoiseLevel 1 { data := [1], noise := 5, depth := 3, size := 2 }
        = calculateNoiseLevel 1 { data := [9, 9], noise := 77, depth := 3, size := 4 } ∧
      needsBootstrapping 1 { data := [1], noise := 5, depth := 3, size := 2 }
        = needsBootstrapping 1 { data := [9, 9], noise := 77, depth := 3, size := 4 }) :=
  ⟨rfl, noise_level_depends_only_on_depth 1 _ _ rfl⟩

/-- C6: the compiled circuit depth seeds inputs at 0 and adds 1 only for
multiply gates: a single `add` gate gives depth 0, a single `multiply`
gate gives depth 1, and two chained multiply gates give depth 2. -/
theorem circuit_depth_examples :
    calculateCircuitDepth singleAddCircuit = some 0 ∧
    calculateCircuitDepth singleMulCircuit = some 1 ∧
    calculateCircuitDepth chainMulCircuit = some 2 := by
  refine ⟨by decide, by decide, by decide⟩

/-- C7 (code bug): a circuit whose realized multiplicative depth is 21
(exceeding `MAX_CIRCUIT_DEPTH = 20`) is still compiled into an execution
plan — `compileCircuit` is a total function with no depth validation and
no `CircuitTooDeep` error path, and `executeCircuit` runs gates without
any depth check either. -/
theorem deep_circuit_not_rejected :
    (compileCircuit deepCircuit).depth = some 21 ∧ MAX_CIRCUIT_DEPTH < 21 := by
  exact ⟨by decide, by decide⟩

/-- The chain step applied to size-2 operands relinearizes back to
size 2 (the raw product has size 4 > 3). -/
theorem multChainStep_size (r x : Ciphertext) (hr : r.size = 2) (hx : x.size = 2) :
    (performHomomorphicMultiply r x).size = 4 ∧ (multChainStep r x).size = 2 := by
  have hm : (performHomomorphicMultiply r x).size = 4 := by
    simp [performHomomorphicMultiply, hr, hx]
  refine ⟨hm, ?_⟩
  simp [multChainStep, needsRelinearization, relinearizeMockValue, hm, MAX_CIPHERTEXT_SIZE]

/-- Folding the multiply-chain step over size-2 inputs keeps the
accumulator at size 2 at every step. -/
theorem multChain_fold_size (l : List Ciphertext) (acc : Ciphertext)
    (hacc : acc.size = 2) (hl : ∀ c ∈ l, c.size = 2) :
    (l.foldl multChainStep acc).size = 2 := by
  induction l generalizing acc with
  | nil => exact hacc
  | cons x xs ih =>
    refine ih (multChainStep acc x) ?_ (fun c hc => hl c (by simp [hc]))
    exact (multChainStep_size acc x hacc (hl x (by simp))).2

/-- C5: in the multiply-chain evaluator every raw product of size-2
operands has component count 4 > `MAX_CIPHERTEXT_SIZE` and is
relinearized back to 2 before the next multiplication, so over any list
of two or more size-2 inputs the chain succeeds and both every
intermediate accumulator and the returned result have component
count 2. -/
theorem multiply_chain_relinearizes (inputs : List Ciphertext)
    (hlen : 2 ≤ inputs.length) (h2 : ∀ c ∈ inputs, c.size = 2) :
    (∀ r x : Ciphertext, r.size = 2 → x.size = 2 →
      (performHomomorphicMultiply r x).size = 4 ∧ (multChainStep r x).size = 2) ∧
    ∃ res, performMultiplication inputs = some res ∧ res.size = 2 := by
  refine ⟨multChainStep_size, ?_⟩
  match inputs, hlen with
  | x :: y :: rest, _ =>
    refine ⟨(y :: rest).foldl multChainStep x, rfl, ?_⟩
    exact multChain_fold_size _ _ (h2 x (by simp)) (fun c hc => h2 c (by simp [hc]))

/-- Witness for C5 on three concrete size-2 ciphertexts. -/
theorem multiply_chain_relinearizes_witness :
    (2 ≤ sampleSizeTwoInputs.length ∧ ∀ c ∈ sampleSizeTwoInputs, c.size = 2) ∧
    ((∀ r x : Ciphertext, r.size = 2 → x.size = 2 →
      (performHomomorphicMultiply r x).size = 4 ∧ (multChainStep r x).size = 2) ∧
    ∃ res, performMultiplication sampleSizeTwoInputs = some res ∧ res.size = 2) :=
  ⟨⟨by decide, by decide⟩,
   multiply_chain_relinearizes sampleSizeTwoInputs (by decide) (by decide)⟩

/-- C1: with the keystream regenerated at decode bit-identical to the one
used at encode (the claim's fixed deterministic noise seed), decoding the
ciphertext produced by encoding any byte sequence returns it:
decode XORs the regenerated keystream against the payload excluding the
trailing 32-byte tag, and XOR is an involution on bytes. -/
theorem encrypt_decrypt_roundtrip (noiseStdDev : ℚ) (ks tag m : List Nat)
    (hks : ks.length = 32) (htag : tag.length = 32)
    (hm : ∀ x ∈ m, x < 256) (hksb : ∀ x ∈ ks, x < 256) :
    decryptValue ks (encryptValue noiseStdDev ks tag m) = m := by
  unfold decryptValue encryptValue
  simp only
  have hlen :
      (((List.range m.length).map
        (fun i => (m.getD i 0 ^^^ ks.getD (i % ks.length) 0) % 256) ++ tag).length - 32)
      = m.length := by
    simp [htag]
  rw [hlen]
  apply List.ext_getElem
  · simp
  · intro i h1 h2
    simp only [List.getElem_map, List.getElem_range]
    have hileft : i < ((List.range m.length).map
        (fun i => (m.getD i 0 ^^^ ks.getD (i % ks.length) 0) % 256)).length := by
      simpa using h2
    rw [List.getD_eq_getElem?_getD, List.getElem?_append_left hileft,
      ← List.getD_eq_getElem?_getD, getD_map_range]
    have h2' : i < m.length := h2
    simp only [h2', if_true]
    have ha : m.getD i 0 < 256 := by
      rw [List.getD_eq_getElem?_getD, List.getElem?_eq_getElem h2']
      exact hm _ (List.getElem_mem h2')
    have hkidx : i % ks.length < ks.length := Nat.mod_lt _ (by omega)
    have hk : ks.getD (i % ks.length) 0 < 256 := by
      rw [List.getD_eq_getElem?_getD, List.getElem?_eq_getElem hkidx]
      exact hksb _ (List.getElem_mem hkidx)
    have hxor : m.getD i 0 ^^^ ks.getD (i % ks.length) 0 < 256 :=
      Nat.xor_lt_two_pow (n := 8) ha hk
    rw [Nat.mod_eq_of_lt hxor, Nat.xor_assoc, Nat.xor_self, Nat.xor_zero,
      Nat.mod_eq_of_lt ha, List.getD_eq_getElem?_getD, List.getElem?_eq_getElem h2']
    rfl

/-- Witness for C1 on a concrete plaintext, keystream and tag. -/
theorem encrypt_decrypt_roundtrip_witness :
    ((List.replicate 32 7 : List Nat).length = 32 ∧
     (List.replicate 32 0 : List Nat).length = 32 ∧
     (∀ x ∈ ([1, 2, 3] : List Nat), x < 256) ∧
     (∀ x ∈ (List.replicate 32 7 : List Nat), x < 256)) ∧
    decryptValue (List.replicate 32 7)
      (encryptValue 3.2 (List.replicate 32 7) (List.replicate 32 0) [1, 2, 3]) = [1, 2, 3] :=
  ⟨⟨by decide, by decide, by decide, by decide⟩,
   encrypt_decrypt_roundtrip 3.2 (List.replicate 32 7) (List.replicate 32 0) [1, 2, 3]
     (by decide) (by decide) (by decide) (by decide)⟩

/-- Bitwise-or of a shifted value with a small value is addition. -/
theorem shiftLeft_or_eq_add {b k : Nat} (hb : b < 2 ^ k) (a : Nat) :
    a <<< k ||| b = a * 2 ^ k + b := by
  rw [Nat.shiftLeft_eq, Nat.mul_comm, ← Nat.mul_add_lt_is_or hb, Nat.mul_comm]

/-- Reassembling the 4 big-endian prefix bytes recovers the length, for
any length below 2^32. -/
theorem readLen_packLen (n : Nat) (hn : n < 2 ^ 32) :
    readLen (n >>> 24 &&& 255) (n >>> 16 &&& 255) (n >>> 8 &&& 255) (n &&& 255) = n := by
  have e255 : ∀ x : Nat, x &&& 255 = x % 2 ^ 8 := by
    intro x
    have h8 : (255 : Nat) = 2 ^ 8 - 1 := by norm_num
    rw [h8, Nat.and_pow_two_sub_one_eq_mod]
  have hm : ∀ x : Nat, x % 2 ^ 8 < 2 ^ 8 := fun x => Nat.mod_lt _ (by norm_num)
  unfold readLen
  rw [Nat.or_assoc, Nat.or_assoc, e255 n, shiftLeft_or_eq_add (hm n), e255 (n >>> 8)]
  have hmid : (n >>> 8) % 2 ^ 8 * 2 ^ 8 + n % 2 ^ 8 < 2 ^ 16 := by
    have h1 := hm (n >>> 8)
    have h2 := hm n
    norm_num at h1 h2 ⊢
    omega
  rw [shiftLeft_or_eq_add hmid, e255 (n >>> 16)]
  have htop : (n >>> 16) % 2 ^ 8 * 2 ^ 16 + ((n >>> 8) % 2 ^ 8 * 2 ^ 8 + n % 2 ^ 8) < 2 ^ 24 := by
    have h1 := hm (n >>> 16)
    have h2 := hm (n >>> 8)
    have h3 := hm n
    norm_num at h1 h2 h3 ⊢
    omega
  rw [shiftLeft_or_eq_add htop, e255 (n >>> 24),
    Nat.shiftRight_eq_div_pow, Nat.shiftRight_eq_div_pow, Nat.shiftRight_eq_div_pow]
  norm_num at hn ⊢
  omega

/-- One step of `unpackValues` on a buffer starting with a 4-byte prefix
declaring `n`: it takes (clamped) `n` bytes and recurses on the rest. -/
theorem unpackValues_step (n : Nat) (hn : n < 2 ^ 32) (tail : List Nat) :
    unpackValues (packLen4 n ++ tail) = tail.take n :: unpackValues (tail.drop n) := by
  rw [unpackValues, dif_neg (by simp [packLen4])]
  have e0 : (packLen4 n ++ tail).getD 0 0 = n >>> 24 &&& 255 := rfl
  have e1 : (packLen4 n ++ tail).getD 1 0 = n >>> 16 &&& 255 := rfl
  have e2 : (packLen4 n ++ tail).getD 2 0 = n >>> 8 &&& 255 := rfl
  have e3 : (packLen4 n ++ tail).getD 3 0 = n &&& 255 := rfl
  have ed : (packLen4 n ++ tail).drop 4 = tail := rfl
  simp only [e0, e1, e2, e3, ed, readLen_packLen n hn]

/-- C9: `unpackValues` inverts `packValues` on every finite sequence of
byte buffers (including the empty sequence and zero-length buffers) whose
lengths stay below 2^31, the range on which the JS signed 32-bit prefix
read agrees with its big-endian value. -/
theorem unpack_pack (values : List (List Nat))
    (h : ∀ v ∈ values, v.length < 2 ^ 31) :
    unpackValues (packValues values) = values := by
  induction values with
  | nil => simp [packValues, unpackValues]
  | cons v vs ih =>
    have hv : v.length < 2 ^ 32 := lt_trans (h v (by simp)) (by norm_num)
    rw [packValues, List.append_assoc, unpackValues_step v.length hv,
      List.take_left, List.drop_left, ih (fun c hc => h c (by simp [hc]))]

/-- Witness for C9 on a concrete sequence with a zero-length buffer. -/
theorem unpack_pack_witness :
    (∀ v ∈ ([[1, 2], [], [255]] : List (List Nat)), v.length < 2 ^ 31) ∧
    unpackValues (packValues [[1, 2], [], [255]]) = [[1, 2], [], [255]] :=
  ⟨by decide, unpack_pack [[1, 2], [], [255]] (by decide)⟩

/-- C8 counterexample: on the buffer `[0,0,0,5,1,2]`, whose prefix
declares 5 bytes while only 2 remain, `unpackValues` does not fail — it
silently returns the truncated value `[1,2]`. -/
theorem unpack_truncates_counterexample :
    unpackValues [0, 0, 0, 5, 1, 2] = [[1, 2]] := by
  have hrepr : ([0, 0, 0, 5, 1, 2] : List Nat) = packLen4 5 ++ [1, 2] := rfl
  rw [hrepr, unpackValues_step 5 (by norm_num) [1, 2]]
  simp [unpackValues]

/-- C8 amended: on every buffer consisting of a 4-byte prefix declaring
`n` bytes followed by fewer than `n` bytes of data, `unpackValues`
returns the remaining bytes as a single silently-truncated value, with
no error. -/
theorem unpack_overlong_truncates (n : Nat) (data : List Nat)
    (hshort : data.length < n) (hn : n < 2 ^ 31) :
    unpackValues (packLen4 n ++ data) = [data] := by
  rw [unpackValues_step n (lt_trans hn (by norm_num)) data,
    List.take_of_length_le (le_of_lt hshort),
    List.drop_eq_nil_of_le (le_of_lt hshort)]
  simp [unpackValues]

/-- Witness for the amended C8 at a concrete overlong prefix. -/
theorem unpack_overlong_truncates_witness :
    (([1, 2] : List Nat).length < 5 ∧ 5 < 2 ^ 31) ∧
    unpackValues (packLen4 5 ++ [1, 2]) = [[1, 2]] :=
  ⟨⟨by decide, by decide⟩, unpack_overlong_truncates 5 [1, 2] (by decide) (by decide)⟩

/-- Evaluating the inner multiply loop (fixed row `i`, columns `js`)
modulo 256: cell `k` accumulates every product `a[i]*b[j]` with
`i + j = k`. -/
theorem inner_fold_mod (a b : List Nat) (i : Nat) (js : List Nat) (f : Nat → Nat) (k : Nat) :
    ((js.foldl (fun g j => updCell g (i + j) (a.getD i 0 * b.getD j 0)) f) k) % 256
      = (f k + (js.map (fun j =>
          if i + j = k then a.getD i 0 * b.getD j 0 else 0)).sum) % 256 := by
  induction js generalizing f with
  | nil => simp
  | cons j js ih =>
    rw [List.foldl_cons, ih]
    simp only [List.map_cons, List.sum_cons, updCell]
    by_cases h : i + j = k
    · rw [if_pos h.symm, if_pos h]
      omega
    · rw [if_neg (fun hh => h hh.symm), if_neg h]
      omega

/-- The inner multiply loop keeps every cell below 256. -/
theorem inner_fold_lt (a b : List Nat) (i : Nat) (js : List Nat) (f : Nat → Nat)
    (hf : ∀ k, f k < 256) :
    ∀ k, (js.foldl (fun g j => updCell g (i + j) (a.getD i 0 * b.getD j 0)) f) k < 256 := by
  induction js generalizing f with
  | nil => exact hf
  | cons j js ih =>
    refine ih _ ?_
    intro k
    simp only [updCell]
    split
    · exact Nat.mod_lt _ (by norm_num)
    · exact hf k

/-- Evaluating the full nested multiply loops modulo 256: cell `k`
accumulates the double sum of products `a[i]*b[j]` with `i + j = k`. -/
theorem outer_fold_mod (a b : List Nat) (is : List Nat) (f : Nat → Nat) (k : Nat) :
    ((is.foldl (fun g i => (List.range b.length).foldl
        (fun g2 j => updCell g2 (i + j) (a.getD i 0 * b.getD j 0)) g) f) k) % 256
      = (f k + (is.map (fun i => ((List.range b.length).map (fun j =>
          if i + j = k then a.getD i 0 * b.getD j 0 else 0)).sum)).sum) % 256 := by
  induction is generalizing f with
  | nil => simp
  | cons i is ih =>
    rw [List.foldl_cons, ih]
    simp only [List.map_cons, List.sum_cons]
    have h1 := inner_fold_mod a b i (List.range b.length) f k
    omega

/-- The nested multiply loops keep every cell below 256. -/
theorem outer_fold_lt (a b : List Nat) (is : List Nat) (f : Nat → Nat)
    (hf : ∀ k, f k < 256) :
    ∀ k, (is.foldl (fun g i => (List.range b.length).foldl
        (fun g2 j => updCell g2 (i + j) (a.getD i 0 * b.getD j 0)) g) f) k < 256 := by
  induction is generalizing f with
  | nil => exact hf
  | cons i is ih => exact ih _ (inner_fold_lt a b i _ f hf)

/-- The multiply loop's cell `k` is the mod-256 discrete convolution
coefficient of the two byte sequences at index `k`. -/
theorem multCells_eq (a b : List Nat) (k : Nat) :
    multCells a b k = ((List.range a.length).map (fun i =>
      ((List.range b.length).map (fun j =>
        if i + j = k then a.getD i 0 * b.getD j 0 else 0)).sum)).sum % 256 := by
  have hb : multCells a b k < 256 :=
    outer_fold_lt a b (List.range a.length) (fun _ => 0) (fun _ => by norm_num) k
  have hm : multCells a b k % 256 = ((fun _ => (0 : Nat)) k
      + ((List.range a.length).map (fun i => ((List.range b.length).map (fun j =>
          if i + j = k then a.getD i 0 * b.getD j 0 else 0)).sum)).sum) % 256 :=
    outer_fold_mod a b (List.range a.length) (fun _ => 0) k
  simp only at hm
  omega

/-- C2: `performHomomorphicMultiply` returns a payload of length
`len(a) + len(b)` whose byte at index `k` is the mod-256 discrete
convolution of the two payloads at `k`, with
`noise = a.noise * b.noise * 2.5`, `depth = max(a.depth, b.depth) + 1`
and `componentCount = a.componentCount + b.componentCount`. -/
theorem multiply_contract (a b : Ciphertext) :
    (performHomomorphicMultiply a b).data.length = a.data.length + b.data.length ∧
    (∀ k : Nat, (performHomomorphicMultiply a b).data.getD k 0
      = ((List.range a.data.length).map (fun i =>
          ((List.range b.data.length).map (fun j =>
            if i + j = k then a.data.getD i 0 * b.data.getD j 0 else 0)).sum)).sum % 256) ∧
    (performHomomorphicMultiply a b).noise = a.noise * b.noise * 2.5 ∧
    (performHomomorphicMultiply a b).depth = max a.depth b.depth + 1 ∧
    (performHomomorphicMultiply a b).size = a.size + b.size := by
  refine ⟨by simp [performHomomorphicMultiply, multData], ?_, rfl, rfl, rfl⟩
  intro k
  show (multData a.data b.data).getD k 0 = _
  rw [multData, getD_map_range]
  by_cases hk : k < a.data.length + b.data.length
  · rw [if_pos hk]
    exact multCells_eq _ _ k
  · rw [if_neg hk]
    have hz : ((List.range a.data.length).map (fun i =>
        ((List.range b.data.length).map (fun j =>
          if i + j = k then a.data.getD i 0 * b.data.getD j 0 else 0)).sum)).sum = 0 := by
      apply List.sum_eq_zero
      intro x hx
      obtain ⟨i, hi, rfl⟩ := List.mem_map.mp hx
      apply List.sum_eq_zero
      intro y hy
      obtain ⟨j, hj, rfl⟩ := List.mem_map.mp hy
      rw [List.mem_range] at hi hj
      rw [if_neg (by omega)]
    rw [hz]

end Fhe
